import Mathlib

/-!
Shallow embedding of `message-thread` (`src/thread.h`): a time-ordered
message queue (`mt::MessageQueue`, built on `std::priority_queue` with
comparator `mt::Compare`), the loop (`mt::Looper`) and the dispatch façade
(`mt::Handler`).

Modelling conventions:
* `std::chrono::steady_clock::time_point` is embedded as `Int`
  (`time_since_epoch().count()`, as read by `mt::Compare`).
* A `std::shared_ptr<Message>` is embedded as an immutable `Message`
  record; the `seq` field stands for the identity of the pointed-to
  object (each `std::make_shared<Message>()` yields a distinct object),
  and `hasRunnable` records whether `runnable_` is non-null.
* `std::priority_queue<MessagePtr, std::vector<MessagePtr>, Compare>` is
  embedded as a `List Message` holding the underlying vector, with
  `push`/`pop` given by the GNU libstdc++ `std::push_heap` /
  `std::pop_heap` algorithms (`__push_heap`, `__adjust_heap`), which is
  what the source instantiates.  The sift loops carry an explicit fuel
  argument so that they are structurally recursive; the fuel passed at
  every call site is an upper bound on the number of iterations of the
  corresponding C++ loop, so the embedded functions compute exactly what
  the C++ loops compute.
* The blocking `MessageQueue::Next` is embedded as a step function
  `NextStep` evaluated at a clock reading `now`: one iteration of the
  `while (true)` loop, whose outcome is either a return or one of the
  two waits.  A whole call is `NextRun`, iterating `NextStep` over the
  successive clock readings at which the loop re-inspects the state.
-/

namespace MT

/-- Embeds `mt::Message` (src/thread.h:53-90).  `send_time` is the
`send_time_` time point as an integer count, `seq` models the identity of
the heap-allocated message object, `hasRunnable` whether `runnable_` is
set. -/
structure Message where
  send_time : Int
  seq : Nat
  hasRunnable : Bool
deriving DecidableEq, Repr

instance : Inhabited Message := ⟨⟨0, 0, false⟩⟩

/-- Embeds `mt::Message::SetCallback(F&& f, std::chrono::milliseconds delay)`
(src/thread.h:64-68): `send_time_ = steady_clock::now() + delay`, and the
runnable is set.  `now` is the clock reading at the call, `seq` the
identity of the freshly allocated message. -/
def setCallbackDelayed (now delay : Int) (seq : Nat) : Message :=
  { send_time := now + delay, seq := seq, hasRunnable := true }

/-- Embeds `mt::Compare` (src/thread.h:94-99): compares
`send_time().time_since_epoch().count()` with `>`. -/
def Compare (f1 f2 : Message) : Bool :=
  f1.send_time > f2.send_time

/-- Parent index in the binary-heap layout of `std::priority_queue`'s
underlying vector. -/
def par (i : Nat) : Nat := (i - 1) / 2

/-- Embeds libstdc++ `std::__push_heap(first, holeIndex, topIndex = 0,
value)`: moves the hole at `hole` up while the parent compares greater
(`Compare parent value`), then writes `value`.  `fuel` bounds the number
of loop iterations; every call site passes `fuel ≥ hole`, which makes the
loop guard `hole > topIndex` subsume fuel exhaustion, so the function
agrees with the C++ loop. -/
def pushHeapAux (l : List Message) (hole : Nat) (v : Message) : Nat → List Message
  | 0 => l.set hole v
  | fuel + 1 =>
    if 0 < hole ∧ Compare (l.getD (par hole) default) v then
      pushHeapAux (l.set hole (l.getD (par hole) default)) (par hole) v fuel
    else
      l.set hole v

/-- Embeds `std::priority_queue::push` (src/thread.h:112 `queue_.push(msg)`):
`push_back` then `std::push_heap` with hole at the last index. -/
def heapPush (l : List Message) (v : Message) : List Message :=
  pushHeapAux (l ++ [v]) l.length v l.length

/-- Embeds the descend loop of libstdc++ `std::__adjust_heap(first,
holeIndex = 0, len, value)`: while `hole < (len - 1) / 2`, move the child
preferred by `Compare` into the hole and descend.  Returns the list and
the final hole index (the C++ `__secondChild`-driven hole).  `fuel`
bounds the iterations; call sites pass `fuel = len`, an upper bound since
the hole index strictly increases and stays below `len`. -/
def adjustLoop (l : List Message) (hole len : Nat) : Nat → List Message × Nat
  | 0 => (l, hole)
  | fuel + 1 =>
    if hole < (len - 1) / 2 then
      let r := 2 * hole + 2
      let c := if Compare (l.getD r default) (l.getD (r - 1) default) then r - 1 else r
      adjustLoop (l.set hole (l.getD c default)) c len fuel
    else
      (l, hole)

/-- Embeds libstdc++ `std::__adjust_heap(first, 0, len, value)` acting on a
list `l` of length `len`: descend the hole to the bottom, take the extra
step when `len` is even and the hole stops at `(len - 2) / 2` (a node with
only a left child), then `std::__push_heap` the value back up. -/
def adjustHeap (l : List Message) (v : Message) : List Message :=
  let len := l.length
  let p := adjustLoop l 0 len len
  if len % 2 = 0 ∧ p.2 = (len - 2) / 2 then
    pushHeapAux ((p.1).set p.2 ((p.1).getD (2 * p.2 + 1) default)) (2 * p.2 + 1) v (2 * p.2 + 1)
  else
    pushHeapAux p.1 p.2 v p.2

/-- Embeds `std::priority_queue::pop` (src/thread.h:143 `queue_.pop()`):
`std::pop_heap` (move the root out, re-heapify the first `size - 1` slots
with the old last element as the sift value) then `pop_back`.  The popped
element is the front, returned separately by `Next` via `top()`. -/
def heapPop (l : List Message) : List Message :=
  if l.length ≤ 1 then []
  else adjustHeap l.dropLast (l.getD (l.length - 1) default)

/-- Embeds the mutable state of `mt::MessageQueue` (src/thread.h:101-163):
the underlying vector of the `priority_queue` member `queue_` and the
`quit_` flag.  The mutex and condition variable have no state visible to
the sequential semantics. -/
structure MessageQueue where
  queue : List Message
  quit : Bool
deriving DecidableEq, Repr

/-- The freshly constructed `mt::MessageQueue` (empty queue, `quit_ = false`). -/
def initQ : MessageQueue := ⟨[], false⟩

/-- Embeds `mt::MessageQueue::Enqueue` (src/thread.h:106-116): under the
lock, return `false` if `quit_`, else push and return `true` (the
`notify_all` has no sequential-state effect). -/
def MessageQueue.Enqueue (s : MessageQueue) (msg : Message) : Bool × MessageQueue :=
  if s.quit then (false, s)
  else (true, ⟨heapPush s.queue msg, s.quit⟩)

/-- Embeds `mt::MessageQueue::Quit` (src/thread.h:147-151): set `quit_`. -/
def MessageQueue.Quit (s : MessageQueue) : MessageQueue :=
  ⟨s.queue, true⟩

/-- Embeds `mt::MessageQueue::QuitSafely` (src/thread.h:153-156): the body
is exactly `Quit();` (the safe drain is a `TODO` comment). -/
def MessageQueue.QuitSafely (s : MessageQueue) : MessageQueue :=
  s.Quit

/-- Outcome of one iteration of the `while (true)` loop in
`mt::MessageQueue::Next` (src/thread.h:118-145): either the call returns
(`ret`), or the iteration blocks in `cv_.wait` (`waitForever`), or in
`cv_.wait_until` with the head's time point (`waitUntil`). -/
inductive NextOutcome where
  | ret : Option Message → NextOutcome
  | waitForever : NextOutcome
  | waitUntil : Int → NextOutcome
deriving DecidableEq, Repr

/-- Embeds one iteration of `mt::MessageQueue::Next` (src/thread.h:118-145)
observed at clock reading `now`: if `quit_`, return `nullptr`; if the
queue is empty, wait; if the head (`queue_.top()`) is due
(`next_message_time <= now`), break out of the loop — the queue is not
empty there, so the post-loop `if (queue_.empty())` is skipped and the
head is popped and returned; otherwise `wait_until` the head's time. -/
def MessageQueue.NextStep (s : MessageQueue) (now : Int) : NextOutcome × MessageQueue :=
  if s.quit then (NextOutcome.ret none, s)
  else
    match s.queue with
    | [] => (NextOutcome.waitForever, s)
    | top :: _ =>
      if top.send_time ≤ now then
        (NextOutcome.ret (some top), ⟨heapPop s.queue, s.quit⟩)
      else
        (NextOutcome.waitUntil top.send_time, s)

/-- A complete call of `mt::MessageQueue::Next`: iterate `NextStep` over
the successive clock readings `ts` at which the loop inspects the state
(initial entry plus each wake-up).  Returns `none` if the call is still
blocked after all the provided readings, otherwise the returned message,
the final state, and the clock reading at which the call returned. -/
def MessageQueue.NextRun (s : MessageQueue) : List Int → Option (Option Message × MessageQueue × Int)
  | [] => none
  | t :: ts =>
    match s.NextStep t with
    | (NextOutcome.ret r, s2) => some (r, s2, t)
    | (_, s2) => s2.NextRun ts

/-- Repeatedly complete `Next` calls that all return immediately at clock
reading `now` (every head already due), collecting the returned messages:
the drain pattern of `mt::Looper::Loop` (src/thread.h:176-187).  `fuel`
bounds the number of calls. -/
def MessageQueue.drainNext (s : MessageQueue) (now : Int) : Nat → List Message
  | 0 => []
  | fuel + 1 =>
    match s.NextStep now with
    | (NextOutcome.ret (some m), s2) => m :: s2.drainNext now fuel
    | _ => []

/-- An operation applied to a `mt::MessageQueue` by producers or by the
loop thread: an `Enqueue`, one observed iteration of `Next` at a clock
reading, a `Quit`, or a `QuitSafely`. -/
inductive QOp where
  | enq : Message → QOp
  | stepAt : Int → QOp
  | quitOp : QOp
  | quitSafelyOp : QOp
deriving DecidableEq, Repr

/-- Result of running a list of `QOp`: final state, the messages returned
by `Next` iterations, and the messages whose `Enqueue` returned `true`. -/
structure RunResult where
  state : MessageQueue
  outputs : List Message
  accepted : List Message
deriving DecidableEq, Repr

/-- Interleaved sequential execution of queue operations, collecting the
messages returned by `Next` and the messages accepted by `Enqueue`. -/
def runOps (s : MessageQueue) : List QOp → RunResult
  | [] => ⟨s, [], []⟩
  | op :: ops =>
    match op with
    | QOp.enq m =>
      let r := s.Enqueue m
      let rest := runOps r.2 ops
      ⟨rest.state, rest.outputs, if r.1 then m :: rest.accepted else rest.accepted⟩
    | QOp.stepAt now =>
      let r := s.NextStep now
      let rest := runOps r.2 ops
      match r.1 with
      | NextOutcome.ret (some m) => ⟨rest.state, m :: rest.outputs, rest.accepted⟩
      | _ => rest
    | QOp.quitOp => runOps s.Quit ops
    | QOp.quitSafelyOp => runOps s.QuitSafely ops

/-- Enqueue a list of messages in order (producer side of a trace). -/
def enqueueAll (s : MessageQueue) (ms : List Message) : MessageQueue :=
  ms.foldl (fun t m => (t.Enqueue m).2) s

/-- Embeds the state of `mt::Looper` (src/thread.h:165-204): the atomic
`quit_` flag and the owned `MessageQueue`. -/
structure Looper where
  quit : Bool
  q : MessageQueue
deriving DecidableEq, Repr

/-- Embeds `mt::Looper::Quit` (src/thread.h:189-192): `quit_ = true;
queue_->Quit();`. -/
def Looper.Quit (L : Looper) : Looper :=
  ⟨true, L.q.Quit⟩

/-- Embeds `mt::Looper::QuitSafely` (src/thread.h:194-197): `quit_ = true;
queue_->QuitSafely();`. -/
def Looper.QuitSafely (L : Looper) : Looper :=
  ⟨true, L.q.QuitSafely⟩

/-- Embeds `mt::Handler`'s optional `callback_` member
(src/thread.h:206-250).  The `Callback::HandleMessage` virtual is an
arbitrary boolean-returning function of the message; `none` models a null
`std::shared_ptr<Callback>`. -/
structure HandlerModel where
  callback : Option (Message → Bool)

/-- The observable steps `mt::Handler::DispatchMessage` can take, in
order: run `msg->runnable()`, call `callback_->HandleMessage(msg)`, call
the virtual `HandleMessage(msg)`. -/
inductive DispatchAction where
  | runRunnable : DispatchAction
  | callbackHandle : DispatchAction
  | handleMessage : DispatchAction
deriving DecidableEq, Repr

/-- Embeds `mt::Handler::DispatchMessage` (src/thread.h:232-243) as the
sequence of actions it performs: if the message has a runnable, run it
and nothing else; otherwise consult `callback_` first when present, and
fall through to the virtual `HandleMessage` exactly when the callback is
absent or returned `false`. -/
def DispatchMessage (h : HandlerModel) (m : Message) : List DispatchAction :=
  if m.hasRunnable then [DispatchAction.runRunnable]
  else
    match h.callback with
    | some cb =>
      if cb m then [DispatchAction.callbackHandle]
      else [DispatchAction.callbackHandle, DispatchAction.handleMessage]
    | none => [DispatchAction.handleMessage]

/-- Embeds `mt::Handler::PostDelay` (src/thread.h:224-230): allocate a
message (`seq` models its identity), `SetCallback(f, delay)` — so
`send_time = now + delay` with no sign check on `delay` — and `Enqueue`
it on the looper's queue, returning `Enqueue`'s result. -/
def PostDelay (s : MessageQueue) (now delay : Int) (seq : Nat) : Bool × MessageQueue :=
  s.Enqueue (setCallbackDelayed now delay seq)

/-- The binary-heap ordering invariant of `std::priority_queue`'s
underlying vector with comparator `mt::Compare`: every non-root entry is
due no earlier than its parent (`Compare` compares with `>`, so the heap
is a min-heap on `send_time`). -/
def IsHeap (l : List Message) : Prop :=
  ∀ i, 0 < i → i < l.length →
    (l.getD (par i) default).send_time ≤ (l.getD i default).send_time

/-- The heap invariant with a hole: every parent/child pair away from
index `hole` is ordered, and the children of `hole` are due no earlier
than the parent of `hole` (vacuous at the root). -/
def HeapExceptAt (l : List Message) (hole : Nat) : Prop :=
  (∀ i, 0 < i → i < l.length → i ≠ hole →
    (l.getD (par i) default).send_time ≤ (l.getD i default).send_time) ∧
  (0 < hole → ∀ i, i < l.length → par i = hole →
    (l.getD (par hole) default).send_time ≤ (l.getD i default).send_time)

theorem getD_set_self (l : List Message) (i : Nat) (a d : Message) (h : i < l.length) :
    (l.set i a).getD i d = a := by
  rw [List.getD_eq_getElem _ _ (by simpa using h)]
  exact List.getElem_set_self _

theorem getD_set_ne (l : List Message) (i j : Nat) (a d : Message) (h : i ≠ j) :
    (l.set i a).getD j d = l.getD j d := by
  by_cases hj : j < l.length
  · rw [List.getD_eq_getElem _ _ (by simpa using hj), List.getD_eq_getElem _ _ hj]
    exact List.getElem_set_ne h _
  · rw [List.getD_eq_default _ _ (by simpa using Nat.le_of_not_lt hj),
      List.getD_eq_default _ _ (by simpa using Nat.le_of_not_lt hj)]

theorem getD_append_left (l1 l2 : List Message) (i : Nat) (d : Message) (h : i < l1.length) :
    (l1 ++ l2).getD i d = l1.getD i d := by
  rw [List.getD_eq_getElem _ _ (by rw [List.length_append]; omega),
    List.getD_eq_getElem _ _ h]
  exact List.getElem_append_left h

theorem getD_append_length (l : List Message) (v d : Message) :
    (l ++ [v]).getD l.length d = v := by
  rw [List.getD_eq_getElem _ _ (by simp)]
  simp

theorem getD_dropLast (l : List Message) (i : Nat) (d : Message) (h : i < l.length - 1) :
    l.dropLast.getD i d = l.getD i d := by
  rw [List.getD_eq_getElem _ _ (by rw [List.length_dropLast]; omega),
    List.getD_eq_getElem _ _ (by omega)]
  exact List.getElem_dropLast l i _

theorem getD_mem (l : List Message) (i : Nat) (d : Message) (h : i < l.length) :
    l.getD i d ∈ l := by
  rw [List.getD_eq_getElem _ _ h]
  exact List.getElem_mem h

theorem mem_iff_getD (l : List Message) (m : Message) :
    m ∈ l ↔ ∃ i, i < l.length ∧ l.getD i default = m := by
  rw [List.mem_iff_getElem]
  constructor
  · rintro ⟨i, hi, rfl⟩
    exact ⟨i, hi, List.getD_eq_getElem _ _ hi⟩
  · rintro ⟨i, hi, h⟩
    exact ⟨i, hi, by rw [← List.getD_eq_getElem _ default hi, h]⟩

theorem multiset_set (l : List Message) (i : Nat) (a : Message) (h : i < l.length) :
    (↑(l.set i a) : Multiset Message) + {l.getD i default} = ↑l + {a} := by
  induction l generalizing i with
  | nil => simp at h
  | cons x t ih =>
    cases i with
    | zero =>
      show (↑(a :: t) : Multiset Message) + {x} = ↑(x :: t) + {a}
      rw [← Multiset.cons_coe, ← Multiset.cons_coe, ← Multiset.singleton_add,
        ← Multiset.singleton_add]
      abel
    | succ j =>
      show (↑(x :: t.set j a) : Multiset Message) + {t.getD j default} = ↑(x :: t) + {a}
      rw [← Multiset.cons_coe, ← Multiset.cons_coe, Multiset.cons_add, Multiset.cons_add]
      exact congrArg _ (ih j (by simpa using h))

theorem multiset_dropLast (l : List Message) (h : l ≠ []) :
    (↑l.dropLast : Multiset Message) + {l.getD (l.length - 1) default} = ↑l := by
  induction l with
  | nil => exact absurd rfl h
  | cons x t ih =>
    cases t with
    | nil => simp
    | cons y u =>
      have hne : (y :: u : List Message) ≠ [] := by simp
      show (↑(x :: (y :: u).dropLast) : Multiset Message) +
        {(x :: y :: u).getD (u.length + 1) default} = ↑(x :: y :: u)
      have hg : (x :: y :: u).getD (u.length + 1) default =
          (y :: u).getD ((y :: u).length - 1) default := by
        simp [List.getD]
      rw [hg, ← Multiset.cons_coe, ← Multiset.cons_coe, Multiset.cons_add]
      exact congrArg _ (ih hne)

theorem pushHeapAux_length (fuel : Nat) : ∀ (l : List Message) (hole : Nat) (v : Message),
    (pushHeapAux l hole v fuel).length = l.length := by
  induction fuel with
  | zero => intro l hole v; simp [pushHeapAux]
  | succ fuel ih =>
    intro l hole v
    rw [pushHeapAux]
    split
    · rw [ih]; simp
    · simp

theorem heapPush_length (l : List Message) (v : Message) :
    (heapPush l v).length = l.length + 1 := by
  rw [heapPush, pushHeapAux_length]; simp

theorem adjustLoop_length (fuel : Nat) : ∀ (l : List Message) (hole len : Nat),
    (adjustLoop l hole len fuel).1.length = l.length := by
  induction fuel with
  | zero => intro l hole len; simp [adjustLoop]
  | succ fuel ih =>
    intro l hole len
    rw [adjustLoop]
    split
    · rw [ih]; simp
    · simp

theorem adjustHeap_length (l : List Message) (v : Message) :
    (adjustHeap l v).length = l.length := by
  rw [adjustHeap]
  split
  · rw [pushHeapAux_length]; simp [adjustLoop_length]
  · rw [pushHeapAux_length, adjustLoop_length]

theorem heapPop_length (l : List Message) (h : l ≠ []) :
    (heapPop l).length = l.length - 1 := by
  rw [heapPop]
  split
  · have : 0 < l.length := List.length_pos.mpr h
    simp; omega
  · rw [adjustHeap_length, List.length_dropLast]

theorem pushHeapAux_multiset (fuel : Nat) :
    ∀ (l : List Message) (hole : Nat) (v : Message), hole ≤ fuel → hole < l.length →
    (↑(pushHeapAux l hole v fuel) : Multiset Message) + {l.getD hole default} = ↑l + {v} := by
  induction fuel with
  | zero =>
    intro l hole v hf hl
    have h0 : hole = 0 := Nat.le_zero.mp hf
    subst h0
    exact multiset_set l 0 v hl
  | succ fuel ih =>
    intro l hole v hf hl
    rw [pushHeapAux]
    split
    · rename_i hc
      have hhole : 0 < hole := hc.1
      have hp : par hole < hole := by unfold par; omega
      have h1 := ih (l.set hole (l.getD (par hole) default)) (par hole) v
        (by omega) (by simp; omega)
      rw [getD_set_ne _ _ _ _ _ (by omega)] at h1
      have h2 := multiset_set l hole (l.getD (par hole) default) hl
      apply add_right_cancel (b := ({l.getD (par hole) default} : Multiset Message))
      rw [add_right_comm, h1, add_right_comm, h2, add_right_comm]
    · exact multiset_set l hole v hl

theorem heapPush_multiset (l : List Message) (v : Message) :
    (↑(heapPush l v) : Multiset Message) = ↑l + {v} := by
  have h := pushHeapAux_multiset l.length (l ++ [v]) l.length v (le_refl _) (by simp)
  rw [getD_append_length] at h
  have h2 : (↑(l ++ [v]) : Multiset Message) = ↑l + {v} := by
    show ((l ++ [v] : List Message) : Multiset Message) = ↑l + ↑([v] : List Message)
    exact congrArg _ rfl
  rw [h2] at h
  exact add_right_cancel h

theorem par_lt (i : Nat) (h : 0 < i) : par i < i := by
  unfold par; omega

theorem par_child_iff (i h : Nat) (hi : 0 < i) : par i = h ↔ i = 2 * h + 1 ∨ i = 2 * h + 2 := by
  unfold par; omega

theorem pushHeapAux_isHeap (fuel : Nat) :
    ∀ (l : List Message) (hole : Nat) (v : Message), hole ≤ fuel → hole < l.length →
    HeapExceptAt (l.set hole v) hole → IsHeap (pushHeapAux l hole v fuel) := by
  induction fuel with
  | zero =>
    intro l hole v hf hl hx
    have h0 : hole = 0 := Nat.le_zero.mp hf
    subst h0
    simp only [pushHeapAux]
    intro i hi hil
    exact hx.1 i hi hil (by omega)
  | succ fuel ih =>
    intro l hole v hf hl hx
    rw [pushHeapAux]
    split
    · rename_i hc
      obtain ⟨hh, hcmp⟩ := hc
      have hv : v.send_time < (l.getD (par hole) default).send_time := by
        simpa [Compare] using hcmp
      have hp : par hole < hole := par_lt hole hh
      have hplen : par hole < l.length := by omega
      -- clean reformulations of the hole-invariant on `l.set hole v`
      have hA : ∀ i, 0 < i → i < l.length → i ≠ hole → par i ≠ hole →
          (l.getD (par i) default).send_time ≤ (l.getD i default).send_time := by
        intro i hi hil hih hpih
        have h1 := hx.1 i hi (by simpa using hil) hih
        rwa [getD_set_ne _ _ _ _ _ (fun he => hpih he.symm),
          getD_set_ne _ _ _ _ _ (fun he => hih he.symm)] at h1
      have hB : ∀ i, i < l.length → par i = hole →
          (l.getD (par hole) default).send_time ≤ (l.getD i default).send_time := by
        intro i hil hpar
        have hi0 : 0 < i := by
          rcases Nat.eq_zero_or_pos i with h0 | h0
          · exfalso; rw [h0] at hpar; unfold par at hpar; omega
          · exact h0
        have hih : i ≠ hole := by
          intro he; rw [he] at hpar; omega
        have h1 := hx.2 hh i (by simpa using hil) hpar
        rwa [getD_set_ne _ _ _ _ _ (by omega), getD_set_ne _ _ _ _ _ (fun he => hih he.symm)] at h1
      apply ih (l.set hole (l.getD (par hole) default)) (par hole) v (by omega) (by simpa using hplen)
      constructor
      · intro i hi hil hip
        have hil' : i < l.length := by simpa using hil
        by_cases hih : i = hole
        · subst hih
          rw [show par i = par i from rfl, getD_set_self _ _ _ _ (by simpa using hplen),
            getD_set_ne _ _ _ _ _ (by omega), getD_set_self _ _ _ _ hl]
          exact le_of_lt hv
        · have hTi : (((l.set hole (l.getD (par hole) default)).set (par hole) v).getD i default)
              = l.getD i default := by
            rw [getD_set_ne _ _ _ _ _ (fun he => hip he.symm),
              getD_set_ne _ _ _ _ _ (fun he => hih he.symm)]
          by_cases hpip : par i = par hole
          · rw [hpip, getD_set_self _ _ _ _ (by simpa using hplen), hTi]
            have hi0 : 0 < i := hi
            have hpih : par i ≠ hole := by rw [hpip]; omega
            exact le_trans (le_of_lt hv) (hpip ▸ hA i hi0 hil' hih hpih)
          · by_cases hpih2 : par i = hole
            · rw [hpih2, getD_set_ne _ _ _ _ _ (by omega), getD_set_self _ _ _ _ hl, hTi]
              exact hB i hil' hpih2
            · rw [getD_set_ne _ _ _ _ _ (fun he => hpip he.symm),
                getD_set_ne _ _ _ _ _ (fun he => hpih2 he.symm), hTi]
              exact hA i hi hil' hih hpih2
      · intro hpp i hil hpar
        have hil' : i < l.length := by simpa using hil
        have hq : par (par hole) < par hole := par_lt (par hole) hpp
        have hqh : par (par hole) ≠ hole := by omega
        have hTq : (((l.set hole (l.getD (par hole) default)).set (par hole) v).getD
            (par (par hole)) default) = l.getD (par (par hole)) default := by
          rw [getD_set_ne _ _ _ _ _ (by omega), getD_set_ne _ _ _ _ _ (fun he => hqh he.symm)]
        have hpp_pair : (l.getD (par (par hole)) default).send_time ≤
            (l.getD (par hole) default).send_time :=
          hA (par hole) hpp hplen (by omega) (by omega)
        rw [hTq]
        by_cases hihole : i = hole
        · subst hihole
          rw [getD_set_ne _ _ _ _ _ (by omega), getD_set_self _ _ _ _ hl]
          exact hpp_pair
        · have hi0 : 0 < i := by
            rcases Nat.eq_zero_or_pos i with h0 | h0
            · exfalso
              rw [h0] at hpar
              have hp0 : par 0 = 0 := by unfold par; omega
              rw [hp0] at hpar
              omega
            · exact h0
          have hipar : i ≠ par hole := by
            intro he; rw [he] at hpar; omega
          rw [getD_set_ne _ _ _ _ _ (fun he => hipar he.symm),
            getD_set_ne _ _ _ _ _ (fun he => hihole he.symm)]
          have hpih : par i ≠ hole := by rw [hpar]; omega
          exact le_trans hpp_pair (hpar ▸ hA i hi0 hil' hihole hpih)
    · rename_i hc
      intro i hi hil
      by_cases hih : i = hole
      · subst hih
        have hnc : ¬ (Compare (l.getD (par i) default) v = true) := fun hcc => hc ⟨hi, hcc⟩
        have hle : (l.getD (par i) default).send_time ≤ v.send_time := by
          simpa [Compare] using hnc
        have hpi : par i < i := par_lt i hi
        rw [getD_set_ne _ _ _ _ _ (by omega), getD_set_self _ _ _ _ hl]
        exact hle
      · exact hx.1 i hi hil hih

theorem adjustLoop_spec (fuel : Nat) :
    ∀ (l : List Message) (hole : Nat), hole < l.length → l.length - hole ≤ fuel →
    HeapExceptAt l hole →
    (adjustLoop l hole l.length fuel).1.length = l.length ∧
    (adjustLoop l hole l.length fuel).2 < l.length ∧
    ¬ ((adjustLoop l hole l.length fuel).2 < (l.length - 1) / 2) ∧
    HeapExceptAt (adjustLoop l hole l.length fuel).1 (adjustLoop l hole l.length fuel).2 ∧
    ((↑(adjustLoop l hole l.length fuel).1 : Multiset Message) + {l.getD hole default}
      = ↑l + {(adjustLoop l hole l.length fuel).1.getD (adjustLoop l hole l.length fuel).2 default}) := by
  induction fuel with
  | zero =>
    intro l hole hl hf hx
    exact absurd hl (by omega)
  | succ fuel ih =>
    intro l hole hl hf hx
    by_cases hcond : hole < (l.length - 1) / 2
    · simp only [adjustLoop, if_pos hcond]
      generalize hC : (if Compare (l.getD (2 * hole + 2) default)
          (l.getD (2 * hole + 2 - 1) default) then 2 * hole + 2 - 1 else 2 * hole + 2) = c
      have hr1 : 2 * hole + 1 < l.length := by omega
      have hr2 : 2 * hole + 2 < l.length := by omega
      have hc_or : c = 2 * hole + 1 ∨ c = 2 * hole + 2 := by
        by_cases hb : Compare (l.getD (2 * hole + 2) default) (l.getD (2 * hole + 2 - 1) default)
        · rw [if_pos hb] at hC; omega
        · rw [if_neg hb] at hC; omega
      have hclen : c < l.length := by omega
      have hchole : hole < c := by omega
      have hmin1 : (l.getD c default).send_time ≤ (l.getD (2 * hole + 1) default).send_time := by
        by_cases hb : Compare (l.getD (2 * hole + 2) default) (l.getD (2 * hole + 2 - 1) default)
        · rw [if_pos hb] at hC
          rw [← hC, show 2 * hole + 2 - 1 = 2 * hole + 1 from by omega]
        · rw [if_neg hb] at hC
          rw [show (2 : Nat) * hole + 2 - 1 = 2 * hole + 1 from by omega] at hb
          rw [← hC]
          simpa [Compare] using hb
      have hmin2 : (l.getD c default).send_time ≤ (l.getD (2 * hole + 2) default).send_time := by
        by_cases hb : Compare (l.getD (2 * hole + 2) default) (l.getD (2 * hole + 2 - 1) default)
        · rw [if_pos hb] at hC
          have : (l.getD (2 * hole + 2 - 1) default).send_time <
              (l.getD (2 * hole + 2) default).send_time := by
            simpa [Compare] using hb
          rw [← hC]
          exact le_of_lt this
        · rw [if_neg hb] at hC
          rw [← hC]
      have hparc : par c = hole := by unfold par; omega
      have hx2 : HeapExceptAt (l.set hole (l.getD c default)) c := by
        constructor
        · intro i hi hil hic
          have hil' : i < l.length := by simpa using hil
          by_cases hih : i = hole
          · subst hih
            rw [getD_set_ne _ _ _ _ _ (by have := par_lt i hi; omega),
              getD_set_self _ _ _ _ hl]
            exact hx.2 hi c hclen hparc
          · rw [getD_set_ne _ _ _ _ _ (fun he => hih he.symm)]
            by_cases hpih : par i = hole
            · rw [hpih, getD_set_self _ _ _ _ hl]
              rcases (par_child_iff i hole hi).mp hpih with h1 | h1
              · rw [h1]; exact hmin1
              · rw [h1]; exact hmin2
            · rw [getD_set_ne _ _ _ _ _ (fun he => hpih he.symm)]
              exact hx.1 i hi hil' hih
        · intro hc0 i hil hpar
          have hil' : i < l.length := by simpa using hil
          have hi0 : 0 < i := by
            rcases Nat.eq_zero_or_pos i with h0 | h0
            · exfalso
              rw [h0] at hpar
              have hp0 : par 0 = 0 := by unfold par; omega
              rw [hp0] at hpar
              omega
            · exact h0
          have hgt : c < i := by
            rcases (par_child_iff i c hi0).mp hpar with h1 | h1 <;> omega
          rw [hparc, getD_set_self _ _ _ _ hl,
            getD_set_ne _ _ _ _ _ (by omega)]
          have h1 := hx.1 i hi0 hil' (by omega)
          rwa [hpar] at h1
      have hlen' : (l.set hole (l.getD c default)).length = l.length := by simp
      have IH := ih (l.set hole (l.getD c default)) c (by simpa using hclen)
        (by simp; omega) hx2
      rw [hlen'] at IH
      obtain ⟨ih1, ih2, ih3, ih4, ih5⟩ := IH
      refine ⟨ih1, ih2, ih3, ih4, ?_⟩
      rw [getD_set_ne _ _ _ _ _ (by omega)] at ih5
      have hms := multiset_set l hole (l.getD c default) hl
      apply add_right_cancel (b := ({l.getD c default} : Multiset Message))
      rw [add_right_comm, ih5, add_right_comm, hms, add_right_comm]
    · simp only [adjustLoop, if_neg hcond]
      exact ⟨trivial, hl, hcond, hx, trivial⟩

theorem adjustHeap_spec (l : List Message) (v : Message) (h0 : 0 < l.length)
    (hx : HeapExceptAt l 0) :
    IsHeap (adjustHeap l v) ∧
    ((↑(adjustHeap l v) : Multiset Message) + {l.getD 0 default} = ↑l + {v}) := by
  obtain ⟨a1, a2, a3, a4, a5⟩ := adjustLoop_spec l.length l 0 h0 (by omega) hx
  simp only [adjustHeap]
  by_cases heven : l.length % 2 = 0 ∧ (adjustLoop l 0 l.length l.length).2 = (l.length - 2) / 2
  · rw [if_pos heven]
    obtain ⟨hev, hpos⟩ := heven
    have hlen2 : 2 ≤ l.length := by omega
    have he : 2 * (adjustLoop l 0 l.length l.length).2 + 1 = l.length - 1 := by omega
    have hA2e : (adjustLoop l 0 l.length l.length).2 ≠
        2 * (adjustLoop l 0 l.length l.length).2 + 1 := by omega
    have helen : 2 * (adjustLoop l 0 l.length l.length).2 + 1 < l.length := by omega
    have hpare : par (2 * (adjustLoop l 0 l.length l.length).2 + 1) =
        (adjustLoop l 0 l.length l.length).2 := by unfold par; omega
    constructor
    · apply pushHeapAux_isHeap _ _ _ _ (le_refl _) (by simp [a1]; omega)
      constructor
      · intro i hi hil hie
        have hil' : i < l.length := by simpa [a1] using hil
        by_cases hiA : i = (adjustLoop l 0 l.length l.length).2
        · rw [hiA, getD_set_ne _ _ _ _ _ (by have := par_lt _ (hiA ▸ hi); omega),
            getD_set_ne _ _ _ _ _ (by have := par_lt _ (hiA ▸ hi); omega),
            getD_set_ne _ _ _ _ _ (fun hh2 => hA2e hh2.symm),
            getD_set_self _ _ _ _ (by rw [a1]; omega)]
          exact a4.2 (hiA ▸ hi) _ (by rw [a1]; exact helen) hpare
        · have hpie : par i ≠ 2 * (adjustLoop l 0 l.length l.length).2 + 1 := by
            intro hpe
            rcases (par_child_iff i _ hi).mp hpe with h1 | h1 <;> omega
          have hpiA : par i ≠ (adjustLoop l 0 l.length l.length).2 := by
            intro hpe
            rcases (par_child_iff i _ hi).mp hpe with h1 | h1 <;> omega
          rw [getD_set_ne _ _ _ _ _ (fun hh2 => hpie hh2.symm),
            getD_set_ne _ _ _ _ _ (fun hh2 => hpiA hh2.symm),
            getD_set_ne _ _ _ _ _ (fun hh2 => hie hh2.symm),
            getD_set_ne _ _ _ _ _ (fun hh2 => hiA hh2.symm)]
          exact a4.1 i hi (by rw [a1]; exact hil') hiA
      · intro hpe i hil hpar
        exfalso
        have hi0 : 0 < i := by
          rcases Nat.eq_zero_or_pos i with hz | hz
          · exfalso
            rw [hz] at hpar
            have hp0 : par 0 = 0 := by unfold par; omega
            rw [hp0] at hpar
            omega
          · exact hz
        have hil' : i < l.length := by simpa [a1] using hil
        rcases (par_child_iff i _ hi0).mp hpar with h1 | h1 <;> omega
    · have pm := pushHeapAux_multiset _ ((adjustLoop l 0 l.length l.length).1.set
        (adjustLoop l 0 l.length l.length).2
        ((adjustLoop l 0 l.length l.length).1.getD
          (2 * (adjustLoop l 0 l.length l.length).2 + 1) default))
        (2 * (adjustLoop l 0 l.length l.length).2 + 1) v (le_refl _) (by simp [a1]; omega)
      rw [getD_set_ne _ _ _ _ _ hA2e] at pm
      have ms2 := multiset_set (adjustLoop l 0 l.length l.length).1
        (adjustLoop l 0 l.length l.length).2
        ((adjustLoop l 0 l.length l.length).1.getD
          (2 * (adjustLoop l 0 l.length l.length).2 + 1) default) (by rw [a1]; omega)
      apply Multiset.ext.mpr
      intro x
      have c1 := congrArg (Multiset.count x) pm
      have c2 := congrArg (Multiset.count x) ms2
      have c3 := congrArg (Multiset.count x) a5
      simp only [Multiset.count_add, Multiset.count_singleton] at c1 c2 c3 ⊢
      split_ifs at c1 c2 c3 ⊢ <;> omega
  · rw [if_neg heven]
    have hleaf : l.length ≤ 2 * (adjustLoop l 0 l.length l.length).2 + 1 := by
      rcases Nat.lt_or_ge (2 * (adjustLoop l 0 l.length l.length).2 + 1) l.length
        with hlt | hge
      · exfalso; exact heven (by omega)
      · exact hge
    constructor
    · apply pushHeapAux_isHeap _ _ _ _ (le_refl _) (by rw [a1]; exact a2)
      constructor
      · intro i hi hil hiA
        have hil' : i < l.length := by simpa [a1] using hil
        have hpiA : par i ≠ (adjustLoop l 0 l.length l.length).2 := by
          intro hpe
          rcases (par_child_iff i _ hi).mp hpe with h1 | h1 <;> omega
        rw [getD_set_ne _ _ _ _ _ (fun hh2 => hpiA hh2.symm),
          getD_set_ne _ _ _ _ _ (fun hh2 => hiA hh2.symm)]
        exact a4.1 i hi (by rw [a1]; exact hil') hiA
      · intro hpe i hil hpar
        exfalso
        have hi0 : 0 < i := by
          rcases Nat.eq_zero_or_pos i with hz | hz
          · exfalso
            rw [hz] at hpar
            have hp0 : par 0 = 0 := by unfold par; omega
            rw [hp0] at hpar
            omega
          · exact hz
        have hil' : i < l.length := by simpa [a1] using hil
        rcases (par_child_iff i _ hi0).mp hpar with h1 | h1 <;> omega
    · have pm := pushHeapAux_multiset _ (adjustLoop l 0 l.length l.length).1
        (adjustLoop l 0 l.length l.length).2 v (le_refl _) (by rw [a1]; exact a2)
      apply Multiset.ext.mpr
      intro x
      have c1 := congrArg (Multiset.count x) pm
      have c3 := congrArg (Multiset.count x) a5
      simp only [Multiset.count_add, Multiset.count_singleton] at c1 c3 ⊢
      split_ifs at c1 c3 ⊢ <;> omega

theorem dropLast_heapExceptAt (l : List Message) (h : IsHeap l) : HeapExceptAt l.dropLast 0 := by
  constructor
  · intro i hi hil _
    have hil' : i < l.length - 1 := by simpa using hil
    have hp : par i < i := par_lt i hi
    rw [getD_dropLast _ _ _ (by omega), getD_dropLast _ _ _ hil']
    exact h i hi (by omega)
  · intro h0 _ _ _
    exact absurd h0 (by omega)

theorem heapPop_isHeap (l : List Message) (h : IsHeap l) : IsHeap (heapPop l) := by
  rw [heapPop]
  split
  · intro i hi hil
    simp at hil
  · rename_i hlen
    exact (adjustHeap_spec l.dropLast (l.getD (l.length - 1) default)
      (by simp; omega) (dropLast_heapExceptAt l h)).1

theorem heapPop_multiset (l : List Message) (h : l ≠ []) (hh : IsHeap l) :
    (↑(heapPop l) : Multiset Message) + {l.getD 0 default} = ↑l := by
  have hpos : 0 < l.length := List.length_pos.mpr h
  rw [heapPop]
  split
  · rename_i hlen
    match l, hpos with
    | [x], _ =>
      show (0 : Multiset Message) + {x} = ↑[x]
      simp
    | x :: y :: t, _ => simp at hlen
  · rename_i hlen
    have hspec := (adjustHeap_spec l.dropLast (l.getD (l.length - 1) default)
      (by simp; omega) (dropLast_heapExceptAt l hh)).2
    rw [getD_dropLast _ _ _ (by omega)] at hspec
    rw [hspec]
    exact multiset_dropLast l h

theorem heapPush_set_last (l : List Message) (v w : Message) :
    (l ++ [v]).set l.length w = l ++ [w] := by
  induction l with
  | nil => rfl
  | cons x t ih => simp [ih]

theorem heapPush_isHeap (l : List Message) (v : Message) (h : IsHeap l) :
    IsHeap (heapPush l v) := by
  rw [heapPush]
  apply pushHeapAux_isHeap _ _ _ _ (le_refl _) (by simp)
  rw [heapPush_set_last]
  constructor
  · intro i hi hil hii
    have hil' : i < l.length := by
      simp at hil
      omega
    have hp : par i < i := par_lt i hi
    rw [getD_append_left _ _ _ _ (by omega), getD_append_left _ _ _ _ hil']
    exact h i hi hil'
  · intro h0 i hil hpar
    exfalso
    have hi0 : 0 < i := by
      rcases Nat.eq_zero_or_pos i with hz | hz
      · exfalso
        rw [hz] at hpar
        have hp0 : par 0 = 0 := by unfold par; omega
        rw [hp0] at hpar
        omega
      · exact hz
    have : i < l.length + 1 := by simpa using hil
    rcases (par_child_iff i _ hi0).mp hpar with h1 | h1 <;> omega

theorem top_min (l : List Message) (h : IsHeap l) :
    ∀ i, i < l.length → (l.getD 0 default).send_time ≤ (l.getD i default).send_time := by
  intro i
  induction i using Nat.strong_induction_on with
  | _ i ih =>
    intro hil
    rcases Nat.eq_zero_or_pos i with hz | hz
    · rw [hz]
    · have hp : par i < i := par_lt i hz
      exact le_trans (ih (par i) hp (by omega)) (h i hz hil)

theorem mem_heap_le (l : List Message) (h : IsHeap l) (m : Message) (hm : m ∈ l) :
    (l.getD 0 default).send_time ≤ m.send_time := by
  obtain ⟨i, hi, hg⟩ := (mem_iff_getD l m).mp hm
  rw [← hg]
  exact top_min l h i hi

theorem mem_of_heapPop (l : List Message) (hne : l ≠ []) (hh : IsHeap l) (m : Message)
    (hm : m ∈ heapPop l) : m ∈ l := by
  have hms := heapPop_multiset l hne hh
  have : m ∈ (↑(heapPop l) : Multiset Message) + {l.getD 0 default} :=
    Multiset.mem_add.mpr (Or.inl (Multiset.mem_coe.mpr hm))
  rw [hms] at this
  exact Multiset.mem_coe.mp this

theorem count_coe_cons (x a : Message) (l : List Message) :
    Multiset.count x ↑(a :: l) = Multiset.count x ↑l + if x = a then 1 else 0 := by
  rw [← Multiset.cons_coe, Multiset.count_cons]

theorem Enqueue_quit (s : MessageQueue) (m : Message) (h : s.quit = true) :
    s.Enqueue m = (false, s) := by
  simp [MessageQueue.Enqueue, h]

theorem NextStep_quit (s : MessageQueue) (now : Int) (h : s.quit = true) :
    s.NextStep now = (NextOutcome.ret none, s) := by
  simp [MessageQueue.NextStep, h]

theorem runOps_quit (ops : List QOp) : ∀ s : MessageQueue, s.quit = true →
    (runOps s ops).outputs = [] ∧ (runOps s ops).accepted = [] ∧
    (runOps s ops).state.quit = true := by
  induction ops with
  | nil =>
    intro s h
    refine ⟨rfl, rfl, ?_⟩
    exact h
  | cons op ops ih =>
    intro s h
    cases op with
    | enq m =>
      have he := Enqueue_quit s m h
      obtain ⟨h1, h2, h3⟩ := ih s h
      simp [runOps, he, h1, h2, h3]
    | stepAt now =>
      have hn := NextStep_quit s now h
      simp only [runOps, hn]
      exact ih s h
    | quitOp => exact ih s.Quit rfl
    | quitSafelyOp => exact ih s.QuitSafely rfl

theorem runOps_inv (ops : List QOp) : ∀ s : MessageQueue, IsHeap s.queue →
    IsHeap (runOps s ops).state.queue ∧
    ((↑(runOps s ops).outputs : Multiset Message) + ↑(runOps s ops).state.queue
      = ↑(runOps s ops).accepted + ↑s.queue) := by
  induction ops with
  | nil => intro s h; exact ⟨h, rfl⟩
  | cons op ops ih =>
    intro s h
    cases op with
    | enq m =>
      by_cases hq : s.quit = true
      · have he := Enqueue_quit s m hq
        simp only [runOps, he]
        exact ih s h
      · have hq' : s.quit = false := by simpa using hq
        have he : s.Enqueue m = (true, ⟨heapPush s.queue m, false⟩) := by
          simp [MessageQueue.Enqueue, hq']
        simp only [runOps, he]
        obtain ⟨ih1, ih2⟩ := ih ⟨heapPush s.queue m, false⟩ (heapPush_isHeap s.queue m h)
        refine ⟨by simpa using ih1, ?_⟩
        have hpm := heapPush_multiset s.queue m
        apply Multiset.ext.mpr
        intro x
        have c1 := congrArg (Multiset.count x) ih2
        have c2 := congrArg (Multiset.count x) hpm
        simp only [count_coe_cons, Multiset.count_add, Multiset.count_singleton,
          if_true] at c1 c2 ⊢
        split_ifs at c1 c2 ⊢ <;> omega
    | stepAt now =>
      by_cases hq : s.quit = true
      · have hn := NextStep_quit s now hq
        simp only [runOps, hn]
        exact ih s h
      · have hq' : s.quit = false := by simpa using hq
        cases hqq : s.queue with
        | nil =>
          have hn : s.NextStep now = (NextOutcome.waitForever, s) := by
            simp [MessageQueue.NextStep, hq', hqq]
          simp only [runOps, hn]
          have hih := ih s h
          rwa [hqq] at hih
        | cons top rest =>
          by_cases hdue : top.send_time ≤ now
          · have hn : s.NextStep now = (NextOutcome.ret (some top), ⟨heapPop s.queue, false⟩) := by
              simp [MessageQueue.NextStep, hq', hqq, hdue]
            simp only [runOps, hn]
            rw [← hqq]
            obtain ⟨ih1, ih2⟩ := ih ⟨heapPop s.queue, false⟩ (heapPop_isHeap s.queue h)
            refine ⟨by simpa using ih1, ?_⟩
            have hpm := heapPop_multiset s.queue (by rw [hqq]; simp) h
            have htop : s.queue.getD 0 default = top := by rw [hqq]; rfl
            rw [htop] at hpm
            apply Multiset.ext.mpr
            intro x
            have c1 := congrArg (Multiset.count x) ih2
            have c2 := congrArg (Multiset.count x) hpm
            simp only [count_coe_cons, Multiset.count_add, Multiset.count_singleton] at c1 c2 ⊢
            split_ifs at c1 c2 ⊢ <;> omega
          · have hn : s.NextStep now = (NextOutcome.waitUntil top.send_time, s) := by
              simp [MessageQueue.NextStep, hq', hqq, hdue]
            simp only [runOps, hn]
            have hih := ih s h
            rwa [hqq] at hih
    | quitOp =>
      simp only [runOps]
      exact ih s.Quit h
    | quitSafelyOp =>
      simp only [runOps]
      exact ih s.QuitSafely h

theorem enqueueAll_quit (ms : List Message) : ∀ s : MessageQueue, s.quit = false →
    (enqueueAll s ms).quit = false := by
  induction ms with
  | nil => intro s h; exact h
  | cons m ms ih =>
    intro s h
    show (enqueueAll (s.Enqueue m).2 ms).quit = false
    apply ih
    simp [MessageQueue.Enqueue, h]

theorem enqueueAll_queue (ms : List Message) : ∀ s : MessageQueue, s.quit = false →
    (enqueueAll s ms).queue = ms.foldl heapPush s.queue := by
  induction ms with
  | nil => intro s _; rfl
  | cons m ms ih =>
    intro s h
    show (enqueueAll (s.Enqueue m).2 ms).queue = ms.foldl heapPush (heapPush s.queue m)
    have he : (s.Enqueue m).2 = ⟨heapPush s.queue m, false⟩ := by
      simp [MessageQueue.Enqueue, h]
    rw [he, ih ⟨heapPush s.queue m, false⟩ rfl]

theorem foldl_heapPush_isHeap (ms : List Message) : ∀ l : List Message, IsHeap l →
    IsHeap (ms.foldl heapPush l) := by
  induction ms with
  | nil => intro l h; exact h
  | cons m ms ih => intro l h; exact ih _ (heapPush_isHeap l m h)

theorem foldl_heapPush_multiset (ms : List Message) : ∀ l : List Message,
    (↑(ms.foldl heapPush l) : Multiset Message) = ↑l + ↑ms := by
  induction ms with
  | nil => intro l; simp
  | cons m ms ih =>
    intro l
    show (↑(ms.foldl heapPush (heapPush l m)) : Multiset Message) = ↑l + ↑(m :: ms)
    rw [ih (heapPush l m)]
    have hpm := heapPush_multiset l m
    apply Multiset.ext.mpr
    intro x
    have c1 := congrArg (Multiset.count x) hpm
    simp only [count_coe_cons, Multiset.count_add, Multiset.count_singleton] at c1 ⊢
    split_ifs at c1 ⊢ <;> omega

theorem drainNext_spec (now : Int) (fuel : Nat) : ∀ s : MessageQueue, s.quit = false →
    s.queue.length = fuel → IsHeap s.queue → (∀ m ∈ s.queue, m.send_time ≤ now) →
    ((↑(s.drainNext now fuel) : Multiset Message) = ↑s.queue ∧
     (s.drainNext now fuel).Pairwise (fun a b => a.send_time ≤ b.send_time)) := by
  induction fuel with
  | zero =>
    intro s _ hlen _ _
    have hq0 : s.queue = [] := List.length_eq_zero.mp hlen
    simp only [MessageQueue.drainNext]
    exact ⟨by rw [hq0], List.Pairwise.nil⟩
  | succ fuel ih =>
    intro s hq hlen hh hdue
    cases hqq : s.queue with
    | nil => rw [hqq] at hlen; simp at hlen
    | cons top rest =>
      have hdueTop : top.send_time ≤ now := hdue top (by rw [hqq]; exact List.mem_cons_self _ _)
      have hn : s.NextStep now = (NextOutcome.ret (some top), ⟨heapPop s.queue, false⟩) := by
        simp [MessageQueue.NextStep, hq, hqq, hdueTop]
      have hne : s.queue ≠ [] := by rw [hqq]; simp
      have hpm := heapPop_multiset s.queue hne hh
      have htop : s.queue.getD 0 default = top := by rw [hqq]; rfl
      rw [htop] at hpm
      have hlen2 : (heapPop s.queue).length = fuel := by
        rw [heapPop_length s.queue hne, hlen]
        omega
      have hdue2 : ∀ m ∈ heapPop s.queue, m.send_time ≤ now := fun m hm =>
        hdue m (mem_of_heapPop s.queue hne hh m hm)
      obtain ⟨ihm, ihp⟩ := ih ⟨heapPop s.queue, false⟩ rfl hlen2 (heapPop_isHeap s.queue hh) hdue2
      have hd : s.drainNext now (fuel + 1) =
          top :: MessageQueue.drainNext ⟨heapPop s.queue, false⟩ now fuel := by
        simp only [MessageQueue.drainNext, hn]
      rw [hd, ← hqq]
      constructor
      · apply Multiset.ext.mpr
        intro x
        have c1 := congrArg (Multiset.count x) hpm
        have c2 := congrArg (Multiset.count x) ihm
        simp only [count_coe_cons, Multiset.count_add, Multiset.count_singleton] at c1 c2 ⊢
        split_ifs at c1 c2 ⊢ <;> omega
      · apply List.Pairwise.cons
        · intro b hb
          have hbm : b ∈ heapPop s.queue := by
            have hbc : b ∈ (↑(MessageQueue.drainNext ⟨heapPop s.queue, false⟩ now fuel) :
                Multiset Message) := Multiset.mem_coe.mpr hb
            rw [ihm] at hbc
            exact Multiset.mem_coe.mp hbc
          have hbq : b ∈ s.queue := mem_of_heapPop s.queue hne hh b hbm
          have hle := mem_heap_le s.queue hh b hbq
          rw [htop] at hle
          exact hle
        · exact ihp

theorem NextStep_ret_some (s : MessageQueue) (now : Int) (m : Message) (s2 : MessageQueue)
    (h : s.NextStep now = (NextOutcome.ret (some m), s2)) :
    m.send_time ≤ now ∧ s.quit = false ∧ m = s.queue.getD 0 default := by
  by_cases hq : s.quit = true
  · rw [NextStep_quit s now hq] at h
    exact absurd (congrArg Prod.fst h) (by simp)
  · have hq' : s.quit = false := by simpa using hq
    cases hqq : s.queue with
    | nil =>
      have hn : s.NextStep now = (NextOutcome.waitForever, s) := by
        simp [MessageQueue.NextStep, hq', hqq]
      rw [hn] at h
      exact absurd (congrArg Prod.fst h) (by simp)
    | cons top rest =>
      by_cases hd : top.send_time ≤ now
      · have hn : s.NextStep now = (NextOutcome.ret (some top), ⟨heapPop s.queue, false⟩) := by
          simp [MessageQueue.NextStep, hq', hqq, hd]
        rw [hn] at h
        have h1 : NextOutcome.ret (some top) = NextOutcome.ret (some m) := congrArg Prod.fst h
        have h2 : (some top : Option Message) = some m := by injection h1
        have h3 : top = m := by injection h2
        subst h3
        exact ⟨hd, hq', rfl⟩
      · have hn : s.NextStep now = (NextOutcome.waitUntil top.send_time, s) := by
          simp [MessageQueue.NextStep, hq', hqq, hd]
        rw [hn] at h
        exact absurd (congrArg Prod.fst h) (by simp)

/-- Claim C1 (code_bug evaluation): the failing input.  A task due at time
`0` is enqueued, the clock reads `5` (so the task is already due), and
`QuitSafely` is called; the very next `Next` iteration returns `nullptr`
(the loop exits) while the due task is still sitting in the queue,
discarded without ever being executed — `QuitSafely` does not drain
already-due work, contradicting its documented intent (the `TODO` left in
its body). -/
theorem c1_quitSafely_discards_due_task :
    ((0 : Int) ≤ 5) ∧
    (((initQ.Enqueue ⟨0, 0, true⟩).2.QuitSafely.NextStep 5).1 = NextOutcome.ret none) ∧
    ((initQ.Enqueue ⟨0, 0, true⟩).2.QuitSafely.queue = [⟨0, 0, true⟩]) := by
  refine ⟨by decide, by decide, by decide⟩

/-- Claim C2 (counterexample): the FIFO tie-break stated by the claim is
false.  Enqueue four tasks with equal due time `0` tagged `0,1,2,3`; the
task enqueued second (`seq = 1`) and the one enqueued third (`seq = 2`)
have equal due time, yet `Next` returns `seq = 2` before `seq = 1` (the
heap pops them `0, 2, 1, 3`). -/
theorem c2_fifo_tie_break_cex :
    ¬ (∀ (ms : List Message) (now : Int), (∀ m ∈ ms, m.send_time ≤ now) →
      ∀ i j, i < j → j < ms.length →
      (ms.getD i default).send_time = (ms.getD j default).send_time →
      ((enqueueAll initQ ms).drainNext now ms.length).indexOf (ms.getD i default) <
        ((enqueueAll initQ ms).drainNext now ms.length).indexOf (ms.getD j default)) := by
  intro hcl
  have h := hcl [⟨0, 0, true⟩, ⟨0, 1, true⟩, ⟨0, 2, true⟩, ⟨0, 3, true⟩] 0
    (by decide) 1 2 (by decide) (by decide) (by decide)
  revert h
  decide

/-- Claim C2 (amended): ties on equal `due_time` are broken by the binary
heap of `std::priority_queue`, not FIFO.  Draining always yields
non-decreasing `send_time` (proved generally), but equal-time tasks can
come out of insertion order: four equal-time tasks enqueued `0,1,2,3` are
returned in the order `0,2,1,3`. -/
theorem c2_tie_break_heap_order :
    (∀ (ms : List Message) (now : Int), (∀ m ∈ ms, m.send_time ≤ now) →
      ((enqueueAll initQ ms).drainNext now ms.length).Pairwise
        (fun a b => a.send_time ≤ b.send_time)) ∧
    ((enqueueAll initQ [⟨0, 0, true⟩, ⟨0, 1, true⟩, ⟨0, 2, true⟩, ⟨0, 3, true⟩]).drainNext
      0 4).map Message.seq = [0, 2, 1, 3] := by
  constructor
  · intro ms now hdue
    have hq : (enqueueAll initQ ms).quit = false := enqueueAll_quit ms initQ rfl
    have hqu : (enqueueAll initQ ms).queue = ms.foldl heapPush [] :=
      enqueueAll_queue ms initQ rfl
    have hh : IsHeap (enqueueAll initQ ms).queue := by
      rw [hqu]
      exact foldl_heapPush_isHeap ms [] (fun i hi hil => by simp at hil)
    have hlen : (enqueueAll initQ ms).queue.length = ms.length := by
      rw [hqu]
      have hc := congrArg Multiset.card (foldl_heapPush_multiset ms [])
      simpa using hc
    have hdueq : ∀ m ∈ (enqueueAll initQ ms).queue, m.send_time ≤ now := by
      intro m hm
      rw [hqu] at hm
      have hmc : m ∈ (↑(ms.foldl heapPush []) : Multiset Message) := Multiset.mem_coe.mpr hm
      rw [foldl_heapPush_multiset ms []] at hmc
      simp at hmc
      exact hdue m hmc
    exact (drainNext_spec now ms.length _ hq hlen hh hdueq).2
  · decide

/-- Claim C2 (amended, witness): the general non-decreasing-order part
instantiated at two concrete equal-time tasks. -/
theorem c2_tie_break_heap_order_witness :
    ((enqueueAll initQ [⟨0, 0, true⟩, ⟨0, 2, true⟩]).drainNext 5 2).Pairwise
      (fun a b => a.send_time ≤ b.send_time) :=
  c2_tie_break_heap_order.1 [⟨0, 0, true⟩, ⟨0, 2, true⟩] 5 (by decide)

/-- Claim C3: once shutdown has been requested (`quit_ = true`), `Enqueue`
returns `false` and leaves the state unchanged, a `Next` iteration returns
`nullptr`, and no interleaving of further operations ever outputs another
task, even if tasks remain queued. -/
theorem c3_after_quit (s : MessageQueue) (m : Message) (now : Int) (ops : List QOp)
    (h : s.quit = true) :
    s.Enqueue m = (false, s) ∧ (s.NextStep now).1 = NextOutcome.ret none ∧
    (runOps s ops).outputs = [] :=
  ⟨Enqueue_quit s m h, by rw [NextStep_quit s now h], (runOps_quit ops s h).1⟩

/-- Claim C3 (witness): a queue that still holds a task due at `3`, after
shutdown; enqueueing is refused and stepping returns nothing. -/
theorem c3_after_quit_witness :
    (MessageQueue.mk [⟨3, 0, true⟩] true).Enqueue ⟨4, 1, true⟩ =
      (false, ⟨[⟨3, 0, true⟩], true⟩) ∧
    ((MessageQueue.mk [⟨3, 0, true⟩] true).NextStep 10).1 = NextOutcome.ret none ∧
    (runOps ⟨[⟨3, 0, true⟩], true⟩ [QOp.stepAt 10, QOp.enq ⟨4, 1, true⟩]).outputs = [] :=
  c3_after_quit ⟨[⟨3, 0, true⟩], true⟩ ⟨4, 1, true⟩ 10
    [QOp.stepAt 10, QOp.enq ⟨4, 1, true⟩] rfl

/-- Claim C4 (counterexample): it is false that `Next` returns nothing
only when shutdown has been requested AND the queue is empty: with
`quit_ = true` and a due task (`send_time = 0`, clock `5`) still at the
head, `Next` returns nothing instead of popping the due task. -/
theorem c4_next_none_cex :
    ¬ (∀ (s : MessageQueue) (now : Int) (s2 : MessageQueue),
      s.NextStep now = (NextOutcome.ret none, s2) → s.quit = true ∧ s.queue = []) := by
  intro hcl
  have h := hcl ⟨[⟨0, 0, true⟩], true⟩ 5 ⟨[⟨0, 0, true⟩], true⟩ (by decide)
  exact absurd h.2 (by decide)

/-- Claim C4 (amended): the algorithm of `Next`, as implemented: it
returns nothing whenever shutdown has been requested, regardless of queue
contents; otherwise, an empty queue waits indefinitely, a due head is
popped and returned, and a not-yet-due head waits until its due time. -/
theorem c4_next_algorithm (s : MessageQueue) (now : Int) :
    (s.quit = true → s.NextStep now = (NextOutcome.ret none, s)) ∧
    (s.quit = false → s.queue = [] → s.NextStep now = (NextOutcome.waitForever, s)) ∧
    (∀ m rest, s.quit = false → s.queue = m :: rest → m.send_time ≤ now →
      s.NextStep now = (NextOutcome.ret (some m), ⟨heapPop s.queue, false⟩)) ∧
    (∀ m rest, s.quit = false → s.queue = m :: rest → now < m.send_time →
      s.NextStep now = (NextOutcome.waitUntil m.send_time, s)) := by
  refine ⟨fun h => NextStep_quit s now h, ?_, ?_, ?_⟩
  · intro hq he
    simp [MessageQueue.NextStep, hq, he]
  · intro m rest hq he hd
    simp [MessageQueue.NextStep, hq, he, hd]
  · intro m rest hq he hd
    simp [MessageQueue.NextStep, hq, he, not_le.mpr hd]

/-- Claim C4 (amended, witness): the pop branch at a concrete state: one
task due at `2`, clock `5`, no shutdown — `Next` pops and returns it. -/
theorem c4_next_algorithm_witness :
    (MessageQueue.mk [⟨2, 0, true⟩] false).NextStep 5 =
      (NextOutcome.ret (some ⟨2, 0, true⟩), ⟨[], false⟩) :=
  (c4_next_algorithm ⟨[⟨2, 0, true⟩], false⟩ 5).2.2.1 ⟨2, 0, true⟩ [] rfl rfl (by decide)

/-- Claim C5: a task is never returned early.  Whenever a full `Next`
call (any sequence of loop wake-ups `ts`) returns message `m` at clock
reading `tr`, then `m.send_time ≤ tr`: the loop hands out a task only
after its due time has arrived. -/
theorem c5_never_early (ts : List Int) : ∀ (s : MessageQueue) (m : Message)
    (s2 : MessageQueue) (tr : Int), s.NextRun ts = some (some m, s2, tr) →
    m.send_time ≤ tr := by
  induction ts with
  | nil =>
    intro s m s2 tr h
    exact absurd h (by simp [MessageQueue.NextRun])
  | cons t ts ih =>
    intro s m s2 tr h
    rcases ho : s.NextStep t with ⟨o, s3⟩
    cases o with
    | ret r =>
      have hrun : s.NextRun (t :: ts) = some (r, s3, t) := by
        simp only [MessageQueue.NextRun, ho]
      rw [hrun] at h
      have hinj : (r, s3, t) = ((some m : Option Message), s2, tr) := by
        injection h
      obtain ⟨hr, hs, ht⟩ : r = some m ∧ s3 = s2 ∧ t = tr := by
        refine ⟨congrArg (fun p => p.1) hinj, ?_, ?_⟩
        · exact congrArg (fun p => p.2.1) hinj
        · exact congrArg (fun p => p.2.2) hinj
      rw [← ht]
      exact (NextStep_ret_some s t m s3 (by rw [ho, hr])).1
    | waitForever =>
      have hrun : s.NextRun (t :: ts) = s3.NextRun ts := by
        simp only [MessageQueue.NextRun, ho]
      rw [hrun] at h
      exact ih s3 m s2 tr h
    | waitUntil tw =>
      have hrun : s.NextRun (t :: ts) = s3.NextRun ts := by
        simp only [MessageQueue.NextRun, ho]
      rw [hrun] at h
      exact ih s3 m s2 tr h

/-- Claim C5 (witness): one task due at `10`; the loop first inspects the
state at clock `5` (waits until `10`), then at clock `12`, where the task
is returned — and indeed `10 ≤ 12`. -/
theorem c5_never_early_witness :
    (MessageQueue.mk [⟨10, 0, true⟩] false).NextRun [5, 12] =
      some (some ⟨10, 0, true⟩, ⟨[], false⟩, 12) ∧ (10 : Int) ≤ 12 :=
  ⟨by decide, c5_never_early [5, 12] ⟨[⟨10, 0, true⟩], false⟩ ⟨10, 0, true⟩
    ⟨[], false⟩ 12 (by decide)⟩

/-- Claim C6: for every sequence of enqueued tasks with pairwise-distinct
due times, draining through `Next` returns exactly the enqueued tasks
(a permutation) in strictly ascending due-time order. -/
theorem c6_distinct_times_ascending (ms : List Message) (now : Int)
    (hnd : (ms.map Message.send_time).Nodup)
    (hdue : ∀ m ∈ ms, m.send_time ≤ now) :
    ((enqueueAll initQ ms).drainNext now ms.length).Perm ms ∧
    ((enqueueAll initQ ms).drainNext now ms.length).Pairwise
      (fun a b => a.send_time < b.send_time) := by
  have hq : (enqueueAll initQ ms).quit = false := enqueueAll_quit ms initQ rfl
  have hqu : (enqueueAll initQ ms).queue = ms.foldl heapPush [] :=
    enqueueAll_queue ms initQ rfl
  have hh : IsHeap (enqueueAll initQ ms).queue := by
    rw [hqu]
    exact foldl_heapPush_isHeap ms [] (fun i hi hil => by simp at hil)
  have hlen : (enqueueAll initQ ms).queue.length = ms.length := by
    rw [hqu]
    have hc := congrArg Multiset.card (foldl_heapPush_multiset ms [])
    simpa using hc
  have hdueq : ∀ m ∈ (enqueueAll initQ ms).queue, m.send_time ≤ now := by
    intro m hm
    rw [hqu] at hm
    have hmc : m ∈ (↑(ms.foldl heapPush []) : Multiset Message) := Multiset.mem_coe.mpr hm
    rw [foldl_heapPush_multiset ms []] at hmc
    simp at hmc
    exact hdue m hmc
  obtain ⟨hms, hpw⟩ := drainNext_spec now ms.length _ hq hlen hh hdueq
  have hperm : ((enqueueAll initQ ms).drainNext now ms.length).Perm ms := by
    apply Multiset.coe_eq_coe.mp
    rw [hms, hqu, foldl_heapPush_multiset ms []]
    simp
  refine ⟨hperm, ?_⟩
  have hndd : (((enqueueAll initQ ms).drainNext now ms.length).map Message.send_time).Nodup :=
    ((hperm.map Message.send_time).symm).nodup hnd
  have hne : ((enqueueAll initQ ms).drainNext now ms.length).Pairwise
      (fun a b => a.send_time ≠ b.send_time) := by
    rw [List.Nodup, List.pairwise_map] at hndd
    exact hndd
  exact (hpw.and hne).imp (fun hab => lt_of_le_of_ne hab.1 hab.2)

/-- Claim C6 (witness): three tasks with due times `3, 1, 2` all already
due at clock `5` drain as exactly those tasks in order `1, 2, 3`. -/
theorem c6_distinct_times_ascending_witness :
    ((enqueueAll initQ [⟨3, 0, true⟩, ⟨1, 1, true⟩, ⟨2, 2, true⟩]).drainNext 5 3).Perm
      [⟨3, 0, true⟩, ⟨1, 1, true⟩, ⟨2, 2, true⟩] ∧
    ((enqueueAll initQ [⟨3, 0, true⟩, ⟨1, 1, true⟩, ⟨2, 2, true⟩]).drainNext 5 3).Pairwise
      (fun a b => a.send_time < b.send_time) :=
  c6_distinct_times_ascending [⟨3, 0, true⟩, ⟨1, 1, true⟩, ⟨2, 2, true⟩] 5
    (by decide) (by decide)

/-- Claim C7 (counterexample): a negative delay is not rejected:
`PostDelay` with delay `-5` at clock `100` returns `true` and enqueues
the task (the state changes), falsifying "the call is rejected and no
task is enqueued". -/
theorem c7_negative_delay_cex :
    ¬ (∀ (s : MessageQueue) (now delay : Int) (k : Nat), delay < 0 →
      (PostDelay s now delay k).1 = false ∧ (PostDelay s now delay k).2 = s) := by
  intro hcl
  have h := hcl initQ 100 (-5) 0 (by decide)
  exact absurd h.1 (by decide)

/-- Claim C7 (amended): `PostDelay` performs no sign check: with any
delay (negative included) it enqueues a task with
`due_time = now + delay` and returns `Enqueue`'s result; a negative delay
silently yields a past due time (the task is immediately due), neither
rejected nor clamped to zero. -/
theorem c7_negative_delay_accepted (s : MessageQueue) (now delay : Int) (k : Nat)
    (hq : s.quit = false) :
    PostDelay s now delay k =
      (true, ⟨heapPush s.queue (setCallbackDelayed now delay k), false⟩) ∧
    (setCallbackDelayed now delay k).send_time = now + delay ∧
    (delay < 0 → (setCallbackDelayed now delay k).send_time < now) := by
  refine ⟨by simp [PostDelay, MessageQueue.Enqueue, hq], rfl, fun hd => ?_⟩
  show now + delay < now
  omega

/-- Claim C7 (amended, witness): delay `-5` at clock `100` on a fresh
queue: accepted, with due time `95` in the past. -/
theorem c7_negative_delay_accepted_witness :
    PostDelay initQ 100 (-5) 0 =
      (true, ⟨heapPush initQ.queue (setCallbackDelayed 100 (-5) 0), false⟩) ∧
    (setCallbackDelayed 100 (-5) 0).send_time = 100 + (-5) ∧
    ((-5 : Int) < 0 → (setCallbackDelayed 100 (-5) 0).send_time < 100) :=
  c7_negative_delay_accepted initQ 100 (-5) 0 rfl

/-- Claim C8: `due_time` is computed exactly once at submission as
`now() + delay` (`SetCallback`), and no subsequent queue operation ever
changes it: every message a `Next` iteration hands out is, field for
field (`send_time` included), one of the messages accepted by `Enqueue`. -/
theorem c8_due_time_fixed :
    (∀ (now delay : Int) (k : Nat), (setCallbackDelayed now delay k).send_time = now + delay) ∧
    (∀ (ops : List QOp) (m : Message), m ∈ (runOps initQ ops).outputs →
      m ∈ (runOps initQ ops).accepted) := by
  refine ⟨fun _ _ _ => rfl, ?_⟩
  intro ops m hm
  have hinv := (runOps_inv ops initQ (fun i hi hil => by simp [initQ] at hil)).2
  have hmem : m ∈ (↑(runOps initQ ops).outputs : Multiset Message) +
      ↑(runOps initQ ops).state.queue :=
    Multiset.mem_add.mpr (Or.inl (Multiset.mem_coe.mpr hm))
  rw [hinv] at hmem
  rcases Multiset.mem_add.mp hmem with h1 | h1
  · exact Multiset.mem_coe.mp h1
  · simp [initQ] at h1

/-- Claim C8 (witness): a task with due time `7` posted and then drained
at clock `9` is among the accepted messages, unchanged. -/
theorem c8_due_time_fixed_witness :
    (⟨7, 0, true⟩ : Message) ∈
      (runOps initQ [QOp.enq ⟨7, 0, true⟩, QOp.stepAt 9]).accepted :=
  c8_due_time_fixed.2 [QOp.enq ⟨7, 0, true⟩, QOp.stepAt 9] ⟨7, 0, true⟩ (by decide)

/-- Claim C9: `QuitSafely` is behaviorally identical to `Quit`, at both
the `MessageQueue` and the `Looper` level: identical resulting state,
hence identical results for every subsequent `Enqueue`, `Next`, or
operation trace. -/
theorem c9_quitSafely_eq_quit :
    (∀ s : MessageQueue, s.QuitSafely = s.Quit) ∧
    (∀ L : Looper, L.QuitSafely = L.Quit) ∧
    (∀ (s : MessageQueue) (ops : List QOp), runOps s.QuitSafely ops = runOps s.Quit ops) ∧
    (∀ (s : MessageQueue) (m : Message), s.QuitSafely.Enqueue m = s.Quit.Enqueue m) ∧
    (∀ (s : MessageQueue) (now : Int), s.QuitSafely.NextStep now = s.Quit.NextStep now) :=
  ⟨fun _ => rfl, fun _ => rfl, fun _ _ => rfl, fun _ _ => rfl, fun _ _ => rfl⟩

/-- Claim C10: `DispatchMessage` runs the message's runnable when one is
set, touching neither the callback nor `HandleMessage`; with no runnable
it tries the callback first (when present) and falls through to the
virtual `HandleMessage` exactly when the callback is absent or returned
`false`. -/
theorem c10_dispatch_priority (h : HandlerModel) (m : Message) :
    (m.hasRunnable = true →
      DispatchMessage h m = [DispatchAction.runRunnable] ∧
      DispatchAction.callbackHandle ∉ DispatchMessage h m ∧
      DispatchAction.handleMessage ∉ DispatchMessage h m) ∧
    (m.hasRunnable = false → h.callback = none →
      DispatchMessage h m = [DispatchAction.handleMessage]) ∧
    (∀ cb, m.hasRunnable = false → h.callback = some cb →
      (cb m = true → DispatchMessage h m = [DispatchAction.callbackHandle]) ∧
      (cb m = false → DispatchMessage h m =
        [DispatchAction.callbackHandle, DispatchAction.handleMessage])) := by
  refine ⟨?_, ?_, ?_⟩
  · intro hr
    refine ⟨by simp [DispatchMessage, hr], ?_, ?_⟩ <;> simp [DispatchMessage, hr]
  · intro hr hcb
    simp [DispatchMessage, hr, hcb]
  · intro cb hr hcb
    constructor
    · intro hcbt
      simp [DispatchMessage, hr, hcb, hcbt]
    · intro hcbf
      simp [DispatchMessage, hr, hcb, hcbf]

/-- Claim C10 (witness): a message with a runnable dispatched to a handler
that also has a callback runs exactly the runnable. -/
theorem c10_dispatch_priority_witness :
    DispatchMessage ⟨some fun _ => true⟩ ⟨0, 0, true⟩ = [DispatchAction.runRunnable] :=
  ((c10_dispatch_priority ⟨some fun _ => true⟩ ⟨0, 0, true⟩).1 rfl).1

end MT
